import Mathlib

/-!
Verification of the cache-manager core: the schema compiler and
matcher/validator (src/schema.ts) and the operation pipeline
(src/cache.ts).  JavaScript values are modelled by `JVal`; the JSON codec
(`JSON.stringify` / `JSON.parse`), gzip compression (`zlib`) and base64
encoding are external Node builtins and are therefore modelled as abstract
parameters (`Codec`) whose documented properties appear as theorem
hypotheses.  Stateful behaviour of the pipeline (event emission, hook
invocation, store delegation) is modelled as an explicit action trace.
-/

namespace CacheManager

/-- A JavaScript value that can appear as a cache value.  Numbers are
modelled by integers (the validator only inspects the kind of a value,
never its numeric content). -/
inductive JVal where
  | jnull
  | jbool (b : Bool)
  | jnum (n : Int)
  | jstr (s : String)
  | jarr (xs : List JVal)
  | jobj (fields : List (String × JVal))

/-- The `type` field of a schema node: one of the five checker keys of
`typeCheckerMap` in src/schema.ts. -/
inductive CType where
  | string
  | number
  | boolean
  | object
  | array
  deriving DecidableEq, Repr

/-- `typeCheckerMap` from src/schema.ts: lodash `isString`, `isNumber`,
`isBoolean`, `isObject` and `Array.isArray`.  Note lodash `isObject` is
true for arrays as well as plain objects. -/
def typeCheck : CType → JVal → Bool
  | .string, .jstr _ => true
  | .number, .jnum _ => true
  | .boolean, .jbool _ => true
  | .object, .jobj _ => true
  | .object, .jarr _ => true
  | .array, .jarr _ => true
  | _, _ => false

/-- A key of the compiled rule `Map` in src/schema.ts: either the literal
string key, or (for keys containing `*`) the wildcard pattern that was
compiled to `new RegExp(key.replace(/\x2a/g, ".*"))`.  We keep the original
pattern string; the regex semantics is given by `reTest` below. -/
inductive SchemaKey where
  | lit (s : String)
  | pat (p : String)
  deriving DecidableEq, Repr

/-- A compiled schema node (the value stored in the rule `Map`): the
`__key__` field written by `transformSchema`, the declared `type`, the
declared `maxTTL`, and (for compiled object nodes) the compiled
`properties` map as an insertion-ordered association list.  A node whose
`type` is not `object` never has its properties compiled nor consulted, so
such raw properties are modelled as `none`. -/
inductive Rule where
  | mk (origKey : Option String) (ctype : Option CType) (maxTTL : Option Nat)
      (properties : Option (List (SchemaKey × Rule)))

def Rule.origKey : Rule → Option String
  | .mk o _ _ _ => o

def Rule.ctype : Rule → Option CType
  | .mk _ t _ _ => t

def Rule.maxTTL : Rule → Option Nat
  | .mk _ _ m _ => m

def Rule.properties : Rule → Option (List (SchemaKey × Rule))
  | .mk _ _ _ p => p

/-- A raw (caller-declared) schema node, before `transformSchema` runs:
optional `type`, optional `maxTTL`, optional `properties` record.  The
record is an insertion-ordered association list, matching `Object.keys`
enumeration order of a JS object literal. -/
inductive Raw where
  | mk (ctype : Option CType) (maxTTL : Option Nat)
      (props : Option (List (String × Raw)))

/-! ### The compiled wildcard matcher

`transformSchema` compiles a wildcard key `p` to
`new RegExp(p.replace(/\x2a/g, ".*"))` and `getMatchRule` applies
`.test(key)`.  `RegExp.prototype.test` performs an unanchored search: the
regex may match any substring of the key.  We model the regexes that
arise — alternating literal characters and `.*` — directly over the
original pattern string, where the character `*` stands for `.*` and the
character `.` matches any single character. -/

/-- Anchored-at-start matching: does the pattern match some prefix of the
key?  The character `*` (standing for the `.*` it was replaced with)
matches any sequence — equivalently, the rest of the pattern must match
starting at some suffix of the key — and `.` matches any single
character. -/
def reMatchPre : List Char → List Char → Bool
  | [], _ => true
  | p :: ps, ks =>
    if p = '*' then ks.tails.any (fun t => reMatchPre ps t)
    else
      match ks with
      | [] => false
      | k :: ks2 => (p == '.' || p == k) && reMatchPre ps ks2

/-- Fully anchored matching: does the pattern match the whole key? -/
def reFull : List Char → List Char → Bool
  | [], ks => ks.isEmpty
  | p :: ps, ks =>
    if p = '*' then ks.tails.any (fun t => reFull ps t)
    else
      match ks with
      | [] => false
      | k :: ks2 => (p == '.' || p == k) && reFull ps ks2

/-- `RegExp.prototype.test`: the compiled pattern is searched for at every
start position of the key. -/
def reTest (p key : String) : Bool :=
  key.data.tails.any (fun t => reMatchPre p.data t)

/-- `String.prototype.startsWith`. -/
def jsStartsWith (s pre : String) : Bool :=
  pre.data.isPrefixOf s.data

/-- lodash `trimStart(s, chars)`: removes from the front of `s` every
character that occurs in `chars` (a character set, not a prefix). -/
def trimStartChars (chars : List Char) : List Char → List Char
  | [] => []
  | c :: cs => if c ∈ chars then trimStartChars chars cs else c :: cs

/-- lodash `trimStart` on strings. -/
def trimStartStr (chars s : String) : String :=
  ⟨trimStartChars chars.data s.data⟩

/-! ### Schema compilation (`transformSchema`) -/

/-- `key.replaceAll("*", "").length`: the count of literal (non-`*`)
characters of a pattern, used as the wildcard ordering criterion. -/
def litLen (p : String) : Nat :=
  (p.data.filter (fun c => c != '*')).length

/-- `key.includes("*")`: purely syntactic wildcard detection. -/
def hasStar (k : String) : Bool :=
  k.data.contains '*'

/-- The `Map` key built for a schema key: a `RegExp` for wildcard keys,
the literal string otherwise. -/
def mkKey (k : String) : SchemaKey :=
  if hasStar k then .pat k else .lit k

/-- Stable descending insertion: `x` is placed before the first element
with a not-larger criterion value, so elements inserted earlier keep their
relative order among equals. -/
def insertDesc (f : α → Nat) (x : α) : List α → List α
  | [] => [x]
  | y :: ys => if f y ≤ f x then x :: y :: ys else y :: insertDesc f x ys

/-- lodash `orderBy(l, f, ["desc"])`: a stable sort by descending `f`. -/
def orderByDesc (f : α → Nat) : List α → List α
  | [] => []
  | x :: xs => insertDesc f x (orderByDesc f xs)

def entryLitLen (e : SchemaKey × Rule) : Nat :=
  match e.1 with
  | .lit s => litLen s
  | .pat p => litLen p

def isPatEntry (e : SchemaKey × Rule) : Bool :=
  match e.1 with
  | .pat _ => true
  | .lit _ => false

/-- The insertion order of the compiled `Map`: lodash `partition` splits
the keys into wildcard and normal ones (each keeping declaration order),
and the map is built over the normal keys first, then the wildcard keys
ordered by descending literal-character count. -/
def orderEntries (es : List (SchemaKey × Rule)) : List (SchemaKey × Rule) :=
  es.filter (fun e => !isPatEntry e) ++ orderByDesc entryLitLen (es.filter isPatEntry)

mutual

/-- `transformSchema` from src/schema.ts, as the pure function from a raw
node (plus the `__key__` the caller stores on it) to the compiled node.
Only nodes with `type === "object"` and a `properties` record have their
properties compiled; compilation records each child's key in `__key__`,
builds the `Map` key with `mkKey`, and orders the entries with
`orderEntries`.  (The source orders the keys first and then compiles each
property; we compile each property first and then order the entries, which
builds the same list since ordering only inspects the keys.) -/
def compileRaw (okey : Option String) : Raw → Rule
  | .mk t m ps? =>
    match t, ps? with
    | some .object, some ps => .mk okey t m (some (orderEntries (compileProps ps)))
    | _, _ => .mk okey t m none

/-- Compile each property of a `properties` record, in declaration
order. -/
def compileProps : List (String × Raw) → List (SchemaKey × Rule)
  | [] => []
  | (k, v) :: rest => (mkKey k, compileRaw (some k) v) :: compileProps rest

end

/-- The rule map a cache is constructed with:
`transformSchema({type: "object", properties: schema}).properties`
(src/cache.ts, createCache). -/
def compileSchema (schema : List (String × Raw)) : List (SchemaKey × Rule) :=
  orderEntries (compileProps schema)

/-! ### Rule resolution (`getMatchRule`) -/

/-- `ruleMap.get(key)`: an exact lookup that only a literal (string) map
key can satisfy. -/
def litMatch (key : String) (e : SchemaKey × Rule) : Bool :=
  match e.1 with
  | .lit s => s == key
  | .pat _ => false

/-- The wildcard-scan acceptance test of `getMatchRule`: the entry's key
is a `RegExp` and either the entry's `__key__` is the bare `"*"` (the
fast path, skipping the regex) or the regex search accepts the key. -/
def wildMatch (key : String) (e : SchemaKey × Rule) : Bool :=
  match e.1 with
  | .lit _ => false
  | .pat p => e.2.origKey == some "*" || reTest p key

/-- `getMatchRule` from src/schema.ts: exact map lookup first, then the
first wildcard entry (in map insertion order) accepted by `wildMatch`. -/
def getMatchRule (ruleMap : List (SchemaKey × Rule)) (key : String) : Option Rule :=
  match ruleMap.find? (litMatch key) with
  | some e => some e.2
  | none => (ruleMap.find? (wildMatch key)).map (fun e => e.2)

/-- Modelled from the claim's words: the naive reference lookup that
tests every wildcard entry's compiled regex against the key, in the same
order, with no `"*"` fast path. -/
def wildMatchNaive (key : String) (e : SchemaKey × Rule) : Bool :=
  match e.1 with
  | .lit _ => false
  | .pat p => reTest p key

/-- Modelled from the claim's words: `getMatchRule` with the naive
wildcard scan. -/
def getMatchRuleNaive (ruleMap : List (SchemaKey × Rule)) (key : String) : Option Rule :=
  match ruleMap.find? (litMatch key) with
  | some e => some e.2
  | none => (ruleMap.find? (wildMatchNaive key)).map (fun e => e.2)

/-! ### Validation (`vaildateCache`) -/

/-- The three `CacheSchemaValidatorError` variants thrown by
`vaildateCache`, distinguished by message, with their context. -/
inductive VErr where
  | noMatchingRule (path : String)
  | ttlExceeded (path : String) (ttl : Nat)
  | typeMismatch (path : String) (value : JVal) (expected : CType)

/-- JavaScript truthiness of an optional number (absent and `0` are
falsy). -/
def truthyN : Option Nat → Bool
  | none => false
  | some n => n != 0

/-- The guard `ttl && rule.maxTTL && ttl > rule.maxTTL`. -/
def ttlViolated (ttl maxTTL : Option Nat) : Bool :=
  truthyN ttl && truthyN maxTTL && decide (maxTTL.getD 0 < ttl.getD 0)

/-- `path ? path + "." + key : key`. -/
def extendPath (path key : String) : String :=
  if path = "" then key else path ++ "." ++ key

mutual

/-- `vaildateCache` from src/schema.ts, returning the first thrown
`CacheSchemaValidatorError` (a `throw` escapes the enclosing `forEach`
immediately) or `none` on success.  JavaScript `undefined` values do not
occur among JSON-representable `JVal`s; `null` is `JVal.jnull`, and the
nullish check skips the type check and the recursion, exactly as
`value === undefined || value === null` does. -/
def vaildateCache (ruleMap : List (SchemaKey × Rule)) (key : String) (value : JVal)
    (path : String) (ttl : Option Nat) : Option VErr :=
  let currentPath := extendPath path key
  match getMatchRule ruleMap key with
  | none => some (.noMatchingRule currentPath)
  | some rule =>
    if ttlViolated ttl rule.maxTTL then some (.ttlExceeded currentPath (ttl.getD 0))
    else
      match rule.ctype with
      | none => none
      | some ct =>
        match value with
        | .jnull => none
        | .jbool b =>
          if typeCheck ct (.jbool b) then none
          else some (.typeMismatch currentPath (.jbool b) ct)
        | .jnum n =>
          if typeCheck ct (.jnum n) then none
          else some (.typeMismatch currentPath (.jnum n) ct)
        | .jstr s =>
          if typeCheck ct (.jstr s) then none
          else some (.typeMismatch currentPath (.jstr s) ct)
        | .jarr xs =>
          if typeCheck ct (.jarr xs) then
            match ct, rule.properties with
            | .object, some pm => validateArrIdx pm 0 xs currentPath ttl
            | _, _ => none
          else some (.typeMismatch currentPath (.jarr xs) ct)
        | .jobj fs =>
          if typeCheck ct (.jobj fs) then
            match ct, rule.properties with
            | .object, some pm => validateFields pm fs currentPath ttl
            | _, _ => none
          else some (.typeMismatch currentPath (.jobj fs) ct)

/-- The `Object.keys(value).forEach` recursion over an object value's own
fields: each field is validated against the rule's compiled `properties`
map, and the first error aborts the iteration. -/
def validateFields (pm : List (SchemaKey × Rule)) (fs : List (String × JVal))
    (path : String) (ttl : Option Nat) : Option VErr :=
  match fs with
  | [] => none
  | (k, v) :: rest =>
    match vaildateCache pm k v path ttl with
    | some e => some e
    | none => validateFields pm rest path ttl

/-- The same recursion when the value is an array (lodash `isObject` is
true for arrays, and `Object.keys` of an array enumerates its index
strings). -/
def validateArrIdx (pm : List (SchemaKey × Rule)) (i : Nat) (xs : List JVal)
    (path : String) (ttl : Option Nat) : Option VErr :=
  match xs with
  | [] => none
  | v :: rest =>
    match vaildateCache pm (toString i) v path ttl with
    | some e => some e
    | none => validateArrIdx pm (i + 1) rest path ttl

end

/-! ### The operation pipeline (`createCache` in src/cache.ts)

Each operation is modelled as a pure function of its inputs (including the
string the backing store returns, for reads) that produces the sequence of
observable actions it performs — pre-operation hook invocations, event
emissions and store delegations — together with what it throws (rejects
with) and what it returns.  The external JSON codec and the gzip/base64
compression are abstract `Codec` parameters. -/

/-- The result value of `get`: a parsed value, or JavaScript `undefined`
(what a failed `parse` yields for the value slot). -/
inductive JsVal where
  | undef
  | val (v : JVal)

/-- `OperationHookData` from src/cache.ts.  `none` models an absent /
`undefined` field. -/
structure HookData where
  operation : String
  key : String
  value : Option String
  rawValue : Option JVal
  ttl : Option Nat

/-- A delegation to the backing store, with the fully resolved
arguments. -/
inductive StoreCall where
  | sget (key : String)
  | sset (key : String) (value : String) (ttl : Option Nat) (nx : Bool) (gzip : Bool)
  | sdel (key : String)
  | smset (pairs : List (String × String)) (ttl : Option Nat)
  | smget (keys : List String)
  | smdel (keys : List String)
  | sttl (key : String)
  | sexists (key : String)
  | sreset

/-- The payload of an `error` event: either a schema violation
(`CacheSchemaValidatorError`), or a JSON parse failure with its error and
the `{key, value, operation}` context. -/
inductive ErrPayload where
  | schemaViolation (e : VErr)
  | parseFailure (err : String) (key : String) (value : Option String) (operation : String)

/-- An emission on the event bus. -/
inductive Emitted where
  | err (p : ErrPayload)
  | compress (key : String) (hasGzip : Bool) (value : String)

/-- One observable action of a pipeline operation, in program order. -/
inductive Action where
  | hook (d : HookData)
  | store (c : StoreCall)
  | emit (e : Emitted)

/-- What an operation throws (rejects with): a schema violation or parse
error re-thrown by Node's `EventEmitter` when an `error` event is emitted
with no registered `error` listener. -/
inductive Thrown where
  | schema (e : VErr)
  | parse (err : String)

/-- The outcome of one pipeline operation: its action trace, what it threw
(if anything), and its result (`none` exactly when it threw). -/
structure OpOut (ρ : Type) where
  trace : List Action
  thrown : Option Thrown
  result : Option ρ

/-- The cache-instance state fixed at construction: the compiled rule map
(if a schema was declared), the key suffix, and whether at least one
`error` listener is currently registered on the event bus (Node's
`EventEmitter` throws the emitted error when there is none). -/
structure CacheCfg where
  ruleMap : Option (List (SchemaKey × Rule))
  suffix : String
  hasErrorListener : Bool

/-- The external serialization and compression collaborators:
`JSON.stringify`, `JSON.parse` (returning the error message on failure),
and the composition of `zlib.gzipSync` with base64 encoding and its
inverse. -/
structure Codec where
  jstringify : JVal → String
  jparse : String → Except String JVal
  gzipB64 : String → String
  gunzipB64 : String → String

/-- The `_gzip_` marker prefix. -/
def GZIP_FLAG : String := "_gzip_"

/-- `vaildateCacheSilent` from src/cache.ts: validation failures are
redirected to the `error` event channel; with no `error` listener the
`emit` call itself throws the error. -/
def vaildateCacheSilent (cfg : CacheCfg) (key : String) (value : JVal)
    (path : String) (ttl : Option Nat) : List Action × Option Thrown :=
  match cfg.ruleMap with
  | none => ([], none)
  | some rm =>
    match vaildateCache rm key value path ttl with
    | none => ([], none)
    | some e =>
      if cfg.hasErrorListener then ([.emit (.err (.schemaViolation e))], none)
      else ([], some (.schema e))

/-- The string `set` finally stores: with `gzip` requested, the
marker-prefixed compressed form is adopted only when strictly shorter than
the raw serialized string. -/
def setFinalStr (cd : Codec) (value : JVal) (gzip : Bool) : String :=
  let str := cd.jstringify value
  if gzip then
    let gzipStr := GZIP_FLAG ++ cd.gzipB64 str
    if gzipStr.length < str.length then gzipStr else str
  else str

/-- `set` from src/cache.ts: silent validation, serialization, the
compression decision with its `compress` event, the pre-operation hook,
and the suffixed store write. -/
def cacheSet (cfg : CacheCfg) (cd : Codec) (key : String) (value : JVal)
    (ttl : Option Nat) (gzip : Bool) (nx : Bool) : OpOut Unit :=
  match vaildateCacheSilent cfg key value "" ttl with
  | (_, some e) => ⟨[], some e, none⟩
  | (t0, none) =>
    let str := cd.jstringify value
    let str2 := setFinalStr cd value gzip
    let t1 :=
      if gzip then
        [Action.emit (.compress key (decide ((GZIP_FLAG ++ cd.gzipB64 str).length < str.length)) str2)]
      else []
    ⟨t0 ++ t1 ++
      [Action.hook ⟨"set", key, some str2, some value, ttl⟩,
       Action.store (.sset (key ++ cfg.suffix) str2 ttl nx gzip)],
      none, some ()⟩

/-- The raw value `get` returns (and passes to its hook) when parsing is
disabled: the stored string, or `null` on a miss. -/
def storedVal : Option String → JVal
  | some s => .jstr s
  | none => .jnull

/-- `get` from src/cache.ts.  `stored` is the string the backing store
returns (`none` for a miss).  With parsing enabled, a stored string
bearing the `_gzip_` marker is decompressed first (via lodash `trimStart`,
a character-set trim); then the string is parsed, a parse failure being
emitted (or, with no `error` listener, thrown) and yielding `undefined`.
`JSON.parse(null)` coerces its argument to the string `"null"` and parses
it to `null`. -/
def cacheGet (cfg : CacheCfg) (cd : Codec) (key : String) (stored : Option String)
    (enableParse : Bool) : OpOut JsVal :=
  let fullKey := key ++ cfg.suffix
  let t0 := [Action.store (.sget fullKey)]
  match enableParse with
  | false =>
    ⟨t0 ++ [Action.hook ⟨"get", key, none, some (storedVal stored), none⟩],
      none, some (.val (storedVal stored))⟩
  | true =>
    let val1 : Option String :=
      match stored with
      | none => none
      | some s =>
        if jsStartsWith s GZIP_FLAG then some (cd.gunzipB64 (trimStartStr GZIP_FLAG s))
        else some s
    let pr : Except String JVal :=
      match val1 with
      | none => .ok .jnull
      | some s => cd.jparse s
    match pr with
    | .ok v =>
      ⟨t0 ++ [Action.hook ⟨"get", key, none, some v, none⟩], none, some (.val v)⟩
    | .error m =>
      if cfg.hasErrorListener then
        ⟨t0 ++ [Action.emit (.err (.parseFailure m fullKey val1 "get")),
                Action.hook ⟨"get", key, none, none, none⟩],
          none, some .undef⟩
      else ⟨t0, some (.parse m), none⟩

/-- The per-element processing of `mget`: each returned element is parsed
(no decompression in this path), a parse failure is emitted with the
parsed (undefined) value in its context — or thrown with no `error`
listener, aborting the remaining elements — and the hook fires per element
with operation `get` and the suffixed key. -/
def mgetStep (cfg : CacheCfg) (cd : Codec) :
    List (String × Option String) → List Action × Option Thrown × List JsVal
  | [] => ([], none, [])
  | (nk, sv) :: rest =>
    let pr : Except String JVal :=
      match sv with
      | none => .ok .jnull
      | some s => cd.jparse s
    match pr with
    | .ok v =>
      let (tr, th, vs) := mgetStep cfg cd rest
      (Action.hook ⟨"get", nk, none, some v, none⟩ :: tr, th, .val v :: vs)
    | .error m =>
      if cfg.hasErrorListener then
        let (tr, th, vs) := mgetStep cfg cd rest
        (Action.emit (.err (.parseFailure m nk none "mget")) ::
           Action.hook ⟨"get", nk, none, none, none⟩ :: tr, th, .undef :: vs)
      else ([], some (.parse m), [])

/-- `mget` from src/cache.ts: one batched store call on the suffixed keys,
then the per-element parse/emit/hook pass. -/
def cacheMget (cfg : CacheCfg) (cd : Codec) (keys : List String)
    (stored : List (Option String)) : OpOut (List JsVal) :=
  let newKeys := keys.map (· ++ cfg.suffix)
  let (tr, th, vs) := mgetStep cfg cd (newKeys.zip stored)
  match th with
  | some e => ⟨Action.store (.smget newKeys) :: tr, some e, none⟩
  | none => ⟨Action.store (.smget newKeys) :: tr, none, some vs⟩

/-- The validation loop at the head of `mset`. -/
def msetValidate (cfg : CacheCfg) (ttl : Option Nat) :
    List (String × JVal) → List Action × Option Thrown
  | [] => ([], none)
  | (k, v) :: rest =>
    match vaildateCacheSilent cfg k v "" ttl with
    | (_, some e) => ([], some e)
    | (t, none) =>
      let (t2, th2) := msetValidate cfg ttl rest
      (t ++ t2, th2)

/-- `mset` from src/cache.ts: per-pair silent validation, then per-pair
serialization with a `set`-tagged hook (carrying no ttl), then one batched
store call with the shared ttl. -/
def cacheMset (cfg : CacheCfg) (cd : Codec) (args : List (String × JVal))
    (ttl : Option Nat) : OpOut Unit :=
  match msetValidate cfg ttl args with
  | (t0, some e) => ⟨t0, some e, none⟩
  | (t0, none) =>
    let hooks := args.map (fun a => Action.hook ⟨"set", a.1, some (cd.jstringify a.2), some a.2, none⟩)
    let newArgs := args.map (fun a => (a.1 ++ cfg.suffix, cd.jstringify a.2))
    ⟨t0 ++ hooks ++ [Action.store (.smset newArgs ttl)], none, some ()⟩

/-- `del` from src/cache.ts: hook, then the suffixed store delete. -/
def cacheDel (cfg : CacheCfg) (key : String) : OpOut Unit :=
  ⟨[Action.hook ⟨"del", key, none, none, none⟩,
    Action.store (.sdel (key ++ cfg.suffix))], none, some ()⟩

/-- `ttl` from src/cache.ts: hook, then the suffixed store ttl query. -/
def cacheTtl (cfg : CacheCfg) (key : String) : OpOut Unit :=
  ⟨[Action.hook ⟨"ttl", key, none, none, none⟩,
    Action.store (.sttl (key ++ cfg.suffix))], none, some ()⟩

/-- `exists` from src/cache.ts: hook, then the suffixed store query. -/
def cacheExists (cfg : CacheCfg) (key : String) : OpOut Unit :=
  ⟨[Action.hook ⟨"exists", key, none, none, none⟩,
    Action.store (.sexists (key ++ cfg.suffix))], none, some ()⟩

/-- `mdel` from src/cache.ts: a bare pass-through on the suffixed keys
(no hook is fired). -/
def cacheMdel (cfg : CacheCfg) (keys : List String) : OpOut Unit :=
  ⟨[Action.store (.smdel (keys.map (· ++ cfg.suffix)))], none, some ()⟩

/-- `reset` from src/cache.ts: a bare pass-through (no hook is fired). -/
def cacheReset (_cfg : CacheCfg) : OpOut Unit :=
  ⟨[Action.store .sreset], none, some ()⟩

/-! ### Trace projections -/

/-- The hook invocations of a trace, in order. -/
def hooksOf (t : List Action) : List HookData :=
  t.filterMap (fun a => match a with | .hook d => some d | _ => none)

/-- The `error` events of a trace, in order. -/
def errEventsOf (t : List Action) : List ErrPayload :=
  t.filterMap (fun a => match a with | .emit (.err p) => some p | _ => none)

/-- The `compress` events of a trace, in order. -/
def compressEventsOf (t : List Action) : List (String × Bool × String) :=
  t.filterMap (fun a => match a with | .emit (.compress k h v) => some (k, h, v) | _ => none)

/-- The store delegations of a trace, in order. -/
def storeCallsOf (t : List Action) : List StoreCall :=
  t.filterMap (fun a => match a with | .store c => some c | _ => none)

/-- The string written by the first store `set` of a trace, if any. -/
def writtenStr (t : List Action) : Option String :=
  ((storeCallsOf t).filterMap
    (fun c => match c with | .sset _ v _ _ _ => some v | _ => none)).head?

/-! ### Heap model of `transformSchema`

`transformSchema` is an in-place transformation of the caller-supplied
schema object graph: it writes a `__key__` field onto every property node
and replaces each `properties` record with the compiled `Map`, returning
the very node it was given.  To reason about mutation and sharing we model
the object graph explicitly: nodes live in a heap addressed by numeric
identities and the function threads the heap. -/

/-- The dynamic content of a node's `properties` field: the raw `Record`
the caller supplied, or the compiled `Map` the mutation replaces it
with. -/
inductive PropsVal where
  | record (ps : List (String × Nat))
  | cmap (ps : List (SchemaKey × Nat))
  deriving DecidableEq, Repr

/-- A schema node as a heap object: declared `type` and `maxTTL`, the
`properties` field, and the `__key__` field (absent until the mutation
writes it). -/
structure HNode where
  ctype : Option CType
  maxTTL : Option Nat
  props : Option PropsVal
  extraKey : Option String
  deriving DecidableEq, Repr

/-- A heap: an association list from node identity to node. -/
def Heap := List (Nat × HNode)

def hGet (h : Heap) (i : Nat) : Option HNode :=
  (List.find? (fun e => e.1 == i) h).map (fun e => e.2)

def hSet (h : Heap) (i : Nat) (n : HNode) : Heap :=
  List.map (fun e => if e.1 == i then (i, n) else e) h

/-- `transformSchema` from src/schema.ts over the heap model, with fuel
bounding the recursion depth (the JS recursion terminates because a schema
literal is a finite tree).  For a node of `type === "object"` with a
`properties` record it orders the property keys (normal keys first, then
wildcards by descending literal length), and for each key in order writes
`__key__` onto the child node, recurses into the child, and collects the
compiled `Map` entry; finally it overwrites the node's `properties` with
the `Map` and returns the same node identity. -/
def transformSchemaH : Nat → Heap → Nat → Heap × Nat
  | 0, h, i => (h, i)
  | fuel + 1, h, i =>
    match hGet h i with
    | none => (h, i)
    | some n =>
      match n.ctype, n.props with
      | some .object, some (.record ps) =>
        let ordered :=
          ps.filter (fun e => !hasStar e.1) ++
            orderByDesc (fun e => litLen e.1) (ps.filter (fun e => hasStar e.1))
        let step :=
          ordered.foldl
            (fun (acc : Heap × List (SchemaKey × Nat)) (e : String × Nat) =>
              let h1 :=
                match hGet acc.1 e.2 with
                | some c => hSet acc.1 e.2 { c with extraKey := some e.1 }
                | none => acc.1
              let r := transformSchemaH fuel h1 e.2
              (r.1, acc.2 ++ [(mkKey e.1, r.2)]))
            (h, [])
        let h3 :=
          match hGet step.1 i with
          | some n2 => hSet step.1 i { n2 with props := some (.cmap step.2) }
          | none => step.1
        (h3, i)
      | _, _ => (h, i)

/-! ### Concrete instances used by witnesses and counterexamples -/

/-- A cache with no schema, empty suffix, and an `error` listener. -/
def cfgPlainL : CacheCfg := ⟨none, "", true⟩

/-- A simple concrete codec instance. -/
def cdPlain : Codec :=
  ⟨fun _ => "1", fun _ => .ok (.jstr "1"), fun s => "Q" ++ s, fun s => s.drop 1⟩

/-- A codec whose parse always fails, standing in for `JSON.parse` on a
non-JSON stored string. -/
def cdErr : Codec :=
  ⟨fun _ => "X", fun _ => .error "SyntaxError", fun s => "Q" ++ s, fun s => s.drop 1⟩

/-- A codec for the round-trip witness: it serializes the witness value to
`"X"`, parses `"X"` back, and compresses invertibly with a payload whose
head is outside the `_gzip_` trim character set (as base64-encoded gzip
output, which always begins with `H`, is). -/
def cdRt : Codec :=
  ⟨fun _ => "X", fun _ => .ok (.jnum 5), fun _ => "Q", fun _ => "X"⟩

/-- The schema `{foo: {type: "string", maxTTL: 60}}`. -/
def rawFoo : Raw := .mk (some .string) (some 60) none

def schemaFoo : List (String × Raw) := [("foo", rawFoo)]

/-- The `schemaFoo` cache with an `error` listener registered. -/
def cfgFooL : CacheCfg := ⟨some (compileSchema schemaFoo), "", true⟩

/-- The `schemaFoo` cache with no `error` listener registered. -/
def cfgFooNoL : CacheCfg := ⟨some (compileSchema schemaFoo), "", false⟩

/-- The nested-object rule `{type: "object", properties: {name: {type:
"string"}}}` declared for pattern `bar*` in the scenario schema. -/
def rawBar : Raw := .mk (some .object) none (some [("name", .mk (some .string) none none)])

/-- The scenario schema of spec section 8. -/
def schemaS : List (String × Raw) :=
  [("foo", rawFoo), ("bar*", rawBar), ("ben*", .mk (some .object) none none)]

def ruleMapS : List (SchemaKey × Rule) := compileSchema schemaS

def ruleBar : Rule := compileRaw (some "bar*") rawBar

/-- A schema of two overlapping wildcard rules. -/
def schemaBa : List (String × Raw) :=
  [("ba*", .mk (some .number) none none), ("bar*", .mk (some .string) none none)]

/-- The single-wildcard schema `{"a*": {type: "string"}}`. -/
def schemaA : List (String × Raw) := [("a*", .mk (some .string) none none)]

/-- A concrete `mset` batch against `schemaFoo`: the first pair conforms,
the second violates the `string` rule for `foo`. -/
def msetArgsW : List (String × JVal) := [("foo", .jstr "1"), ("foo", .jnum 2)]

/-- A two-node schema object graph: node 0 is
`{type:"object", properties: {a: node 1}}`, node 1 is
`{type:"string"}`. -/
def heapC9 : Heap :=
  [(0, ⟨some .object, none, some (.record [("a", 1)]), none⟩),
   (1, ⟨some .string, none, none, none⟩)]

/-! ## Helper lemmas about the wildcard matcher -/

theorem nil_mem_tails (ks : List Char) : [] ∈ ks.tails := by
  induction ks with
  | nil => simp [List.tails]
  | cons k ks ih => rw [List.tails_cons]; exact List.mem_cons_of_mem _ ih

theorem reFull_cons_star (ps ks : List Char) :
    reFull ('*' :: ps) ks = ks.tails.any (fun t => reFull ps t) := by
  simp [reFull]

theorem reMatchPre_cons_star (ps ks : List Char) :
    reMatchPre ('*' :: ps) ks = ks.tails.any (fun t => reMatchPre ps t) := by
  simp [reMatchPre]

theorem reFull_star_nil (ks : List Char) : reFull ['*'] ks = true := by
  rw [reFull_cons_star, List.any_eq_true]
  exact ⟨[], nil_mem_tails ks, rfl⟩

/-- Anchored prefix matching is full matching against the pattern with a
trailing `*`. -/
theorem reMatchPre_eq_reFull_star (ps ks : List Char) :
    reMatchPre ps ks = reFull (ps ++ ['*']) ks := by
  induction ps generalizing ks with
  | nil => simp [reMatchPre, reFull_star_nil]
  | cons p ps ih =>
    by_cases hp : p = '*'
    · subst hp
      rw [List.cons_append, reMatchPre_cons_star, reFull_cons_star]
      simp only [ih]
    · cases ks with
      | nil => simp [reMatchPre, reFull, hp]
      | cons k ks2 => simp [reMatchPre, reFull, hp, ih]

/-- The bare pattern `*` accepts every key. -/
theorem reTest_star (key : String) : reTest "*" key = true := by
  unfold reTest
  rw [List.any_eq_true]
  refine ⟨key.data, (List.mem_tails _ _).2 (List.suffix_refl _), ?_⟩
  show reMatchPre ['*'] key.data = true
  rw [reMatchPre_cons_star, List.any_eq_true]
  exact ⟨[], nil_mem_tails _, rfl⟩

/-! ## Helper lemmas about ordering and lookup -/

theorem mem_insertDesc {f : α → Nat} {x a : α} {l : List α} :
    a ∈ insertDesc f x l ↔ a = x ∨ a ∈ l := by
  induction l with
  | nil => simp [insertDesc]
  | cons y ys ih =>
    by_cases h : f y ≤ f x
    · simp only [insertDesc, if_pos h, List.mem_cons]
    · simp only [insertDesc, if_neg h, List.mem_cons, ih]
      tauto

theorem mem_orderByDesc {f : α → Nat} {a : α} {l : List α} :
    a ∈ orderByDesc f l ↔ a ∈ l := by
  induction l with
  | nil => simp [orderByDesc]
  | cons x xs ih =>
    simp only [orderByDesc, mem_insertDesc, ih, List.mem_cons]

theorem pairwise_insertDesc {f : α → Nat} {x : α} {l : List α}
    (h : l.Pairwise (fun a b => f b ≤ f a)) :
    (insertDesc f x l).Pairwise (fun a b => f b ≤ f a) := by
  induction l with
  | nil => simp [insertDesc]
  | cons y ys ih =>
    rw [List.pairwise_cons] at h
    obtain ⟨hy, hys⟩ := h
    by_cases hle : f y ≤ f x
    · rw [insertDesc, if_pos hle]
      refine List.pairwise_cons.2 ⟨?_, List.pairwise_cons.2 ⟨hy, hys⟩⟩
      intro b hb
      rcases List.mem_cons.1 hb with rfl | hb
      · exact hle
      · exact le_trans (hy b hb) hle
    · rw [insertDesc, if_neg hle]
      refine List.pairwise_cons.2 ⟨?_, ih hys⟩
      intro b hb
      rcases mem_insertDesc.1 hb with rfl | hb
      · exact le_of_lt (lt_of_not_le hle)
      · exact hy b hb

theorem pairwise_orderByDesc {f : α → Nat} (l : List α) :
    (orderByDesc f l).Pairwise (fun a b => f b ≤ f a) := by
  induction l with
  | nil => simp [orderByDesc]
  | cons x xs ih =>
    rw [orderByDesc]
    exact pairwise_insertDesc ih

theorem find?_congr_mem {p q : α → Bool} {l : List α} (h : ∀ x ∈ l, p x = q x) :
    l.find? p = l.find? q := by
  induction l with
  | nil => rfl
  | cons a l ih =>
    have ha := h a (List.mem_cons_self a l)
    rw [List.find?_cons, List.find?_cons, ha]
    cases hq : q a with
    | true => simp only [hq]
    | false =>
      simp only [hq]
      exact ih fun x hx => h x (List.mem_cons_of_mem a hx)

theorem find?_eq_some_unique {p : α → Bool} {x : α} {l : List α}
    (hm : x ∈ l) (hp : p x = true) (hu : ∀ y ∈ l, p y = true → y = x) :
    l.find? p = some x := by
  induction l with
  | nil => cases hm
  | cons a l ih =>
    rw [List.find?_cons]
    cases hpa : p a with
    | true =>
      simp only [hpa]
      rw [hu a (List.mem_cons_self a l) hpa]
    | false =>
      simp only [hpa]
      rcases List.mem_cons.1 hm with rfl | hm2
      · rw [hp] at hpa; cases hpa
      · exact ih hm2 fun y hy hpy => hu y (List.mem_cons_of_mem a hy) hpy

/-- The first match found in a list sorted by descending criterion has the
maximal criterion value among all matches. -/
theorem find?_sorted_max {f : α → Nat} {p : α → Bool} {l : List α} {x : α}
    (hs : l.Pairwise (fun a b => f b ≤ f a)) (hfind : l.find? p = some x) :
    ∀ y ∈ l, p y = true → f y ≤ f x := by
  induction l with
  | nil => cases hfind
  | cons a l ih =>
    rw [List.pairwise_cons] at hs
    obtain ⟨ha, hs2⟩ := hs
    rw [List.find?_cons] at hfind
    cases hpa : p a with
    | true =>
      simp only [hpa] at hfind
      obtain rfl : a = x := by
        cases hfind
        rfl
      intro y hy hpy
      rcases List.mem_cons.1 hy with rfl | hy2
      · exact le_refl _
      · exact ha y hy2
    | false =>
      simp only [hpa] at hfind
      intro y hy hpy
      rcases List.mem_cons.1 hy with rfl | hy2
      · rw [hpy] at hpa; cases hpa
      · exact ih hs2 hfind y hy2 hpy

theorem assoc_value_unique {β : Type} {l : List (String × β)}
    (h : (l.map Prod.fst).Nodup) {k : String} {b c : β}
    (hb : (k, b) ∈ l) (hc : (k, c) ∈ l) : b = c := by
  induction l with
  | nil => cases hb
  | cons a l ih =>
    rw [List.map_cons, List.nodup_cons] at h
    obtain ⟨hna, hnd⟩ := h
    rcases List.mem_cons.1 hb with rfl | hb2
    · rcases List.mem_cons.1 hc with heq2 | hc2
      · exact (congrArg Prod.snd heq2).symm
      · exact absurd (List.mem_map_of_mem Prod.fst hc2) hna
    · rcases List.mem_cons.1 hc with rfl | hc2
      · exact absurd (List.mem_map_of_mem Prod.fst hb2) hna
      · exact ih hnd hb2 hc2

/-! ## Structure of the compiled schema -/

theorem compileProps_eq_map (ps : List (String × Raw)) :
    compileProps ps = ps.map (fun e => (mkKey e.1, compileRaw (some e.1) e.2)) := by
  induction ps with
  | nil => rfl
  | cons e rest ih =>
    obtain ⟨k, v⟩ := e
    simp only [compileProps, ih, List.map_cons]

theorem mem_orderEntries {e : SchemaKey × Rule} {es : List (SchemaKey × Rule)} :
    e ∈ orderEntries es ↔ e ∈ es := by
  unfold orderEntries
  rw [List.mem_append, mem_orderByDesc]
  constructor
  · rintro (h | h) <;> exact (List.mem_filter.1 h).1
  · intro h
    by_cases hp : isPatEntry e = true
    · exact Or.inr (List.mem_filter.2 ⟨h, hp⟩)
    · exact Or.inl (List.mem_filter.2 ⟨h, by simp [hp]⟩)

theorem origKey_compileRaw (okey : Option String) (r : Raw) :
    (compileRaw okey r).origKey = okey := by
  obtain ⟨t, m, p⟩ := r
  rcases t with _ | ct
  · rcases p with _ | ps <;> rfl
  · rcases ct <;> rcases p with _ | ps <;> rfl

/-- Every wildcard entry of a compiled rule map carries its own original
pattern in `__key__`. -/
theorem pat_origKey_compileSchema {raw : List (String × Raw)} {e : SchemaKey × Rule}
    (he : e ∈ compileSchema raw) {p : String} (hp : e.1 = .pat p) :
    e.2.origKey = some p := by
  have h1 : e ∈ compileProps raw := mem_orderEntries.1 he
  rw [compileProps_eq_map] at h1
  obtain ⟨⟨k, v⟩, hkv, rfl⟩ := List.mem_map.1 h1
  have hk : k = p := by
    unfold mkKey at hp
    by_cases hs : hasStar k = true
    · rw [if_pos hs] at hp
      exact SchemaKey.pat.inj hp
    · rw [if_neg hs] at hp
      cases hp
  subst hk
  exact origKey_compileRaw _ _

/-! ## C6: semantics of the compiled wildcard matcher -/

/-- C6 counterexample: the claim says the compiled matcher accepts a key
exactly when the whole key matches the pattern (each `*` replaced by `.*`,
anchored at both ends), so pattern `a*` should accept only keys beginning
with `a`.  But `RegExp.prototype.test` is an unanchored search: the
compiled matcher for pattern `a*` accepts the key `ba`, which the anchored
semantics rejects, and `getMatchRule` consequently resolves a rule for
`ba` under the schema `{"a*": ...}`. -/
theorem c6_counterexample :
    reTest "a*" "ba" = true ∧
    reFull "a*".data "ba".data = false ∧
    (getMatchRule (compileSchema schemaA) "ba").isSome = true :=
  ⟨rfl, rfl, rfl⟩

/-- C6 (amended): the compiled matcher accepts `k` exactly when `k` as a
whole matches the pattern with each `*` replaced by `.*` and an implicit
`.*` added at BOTH ends (an unanchored substring search, the semantics of
`RegExp.prototype.test`); so `a*` accepts any key containing an `a`, not
only keys beginning with `a`. -/
theorem c6_matcher_unanchored (p k : String) :
    reTest p k = reFull ('*' :: p.data ++ ['*']) k.data := by
  rw [List.cons_append, reFull_cons_star]
  unfold reTest
  simp only [reMatchPre_eq_reFull_star]

/-! ## C2: rule-resolution priority -/

/-- C2: for every compiled schema and key, (1) an exact-literal rule is
always picked when one exists for the key; (2) when no literal rule exists
for the key and some wildcard rule matches it, the resolved rule comes
from a matching wildcard pattern whose literal (non-`*`) character count
is maximal among all matching wildcard patterns — so `bar*` beats `ba*`
for key `barxxx`, and the zero-literal catch-all `*` is only ever chosen
when no wildcard with more literal characters matches. -/
theorem c2_rule_priority (raw : List (String × Raw)) (key : String)
    (hnodup : (raw.map Prod.fst).Nodup) :
    (∀ d, (key, d) ∈ raw → hasStar key = false →
        getMatchRule (compileSchema raw) key = some (compileRaw (some key) d)) ∧
    ((∀ q d, (q, d) ∈ raw → hasStar q = false → q ≠ key) →
      ∀ p dp, (p, dp) ∈ raw → hasStar p = true → reTest p key = true →
        ∃ q dq, (q, dq) ∈ raw ∧ hasStar q = true ∧ reTest q key = true ∧
          (∀ r dr, (r, dr) ∈ raw → hasStar r = true → reTest r key = true →
            litLen r ≤ litLen q) ∧
          getMatchRule (compileSchema raw) key = some (compileRaw (some q) dq)) := by
  constructor
  · -- literal rules outrank everything: the exact map lookup finds them
    intro d hd hns
    have hmem : (SchemaKey.lit key, compileRaw (some key) d) ∈ compileSchema raw := by
      apply mem_orderEntries.2
      rw [compileProps_eq_map]
      refine List.mem_map.2 ⟨(key, d), hd, ?_⟩
      simp [mkKey, hns]
    have hfind : (compileSchema raw).find? (litMatch key) =
        some (SchemaKey.lit key, compileRaw (some key) d) := by
      apply find?_eq_some_unique hmem
      · simp [litMatch]
      · intro y hy hpy
        have hy2 := mem_orderEntries.1 hy
        rw [compileProps_eq_map] at hy2
        obtain ⟨⟨k2, v2⟩, hk2, rfl⟩ := List.mem_map.1 hy2
        by_cases hs2 : hasStar k2 = true
        · exfalso
          unfold litMatch mkKey at hpy
          rw [if_pos hs2] at hpy
          cases hpy
        · unfold litMatch mkKey at hpy
          rw [if_neg hs2] at hpy
          have hk2key : k2 = key := eq_of_beq hpy
          subst hk2key
          rw [assoc_value_unique hnodup hk2 hd]
          unfold mkKey
          rw [if_neg hs2]
    unfold getMatchRule
    rw [hfind]
  · -- wildcard resolution: the scan meets wildcards in descending
    -- literal-count order, so the first match has the maximal count
    intro hnolit p dp hp hps hpt
    have hlitnone : (compileSchema raw).find? (litMatch key) = none := by
      rw [List.find?_eq_none]
      intro e he
      have he2 := mem_orderEntries.1 he
      rw [compileProps_eq_map] at he2
      obtain ⟨⟨k2, v2⟩, hk2, rfl⟩ := List.mem_map.1 he2
      by_cases hs2 : hasStar k2 = true
      · unfold litMatch mkKey
        rw [if_pos hs2]
        simp
      · unfold litMatch mkKey
        rw [if_neg hs2]
        have hne : k2 ≠ key := hnolit k2 v2 hk2 (by revert hs2; cases hasStar k2 <;> simp)
        simp [hne]
    have hsplit : compileSchema raw =
        (compileProps raw).filter (fun e => !isPatEntry e) ++
          orderByDesc entryLitLen ((compileProps raw).filter isPatEntry) := rfl
    have hlitpart : ((compileProps raw).filter (fun e => !isPatEntry e)).find?
        (wildMatch key) = none := by
      rw [List.find?_eq_none]
      intro e he
      have hnp := (List.mem_filter.1 he).2
      unfold wildMatch
      cases h1 : e.1 with
      | lit s => simp
      | pat s =>
        exfalso
        rw [Bool.not_eq_true'] at hnp
        unfold isPatEntry at hnp
        rw [h1] at hnp
        cases hnp
    have hpentry : (SchemaKey.pat p, compileRaw (some p) dp) ∈
        orderByDesc entryLitLen ((compileProps raw).filter isPatEntry) := by
      rw [mem_orderByDesc]
      apply List.mem_filter.2
      refine ⟨?_, rfl⟩
      rw [compileProps_eq_map]
      exact List.mem_map.2 ⟨(p, dp), hp, by simp [mkKey, hps]⟩
    obtain ⟨chosen, hch⟩ : ∃ c,
        (orderByDesc entryLitLen ((compileProps raw).filter isPatEntry)).find?
          (wildMatch key) = some c := by
      cases hfb : (orderByDesc entryLitLen ((compileProps raw).filter isPatEntry)).find?
          (wildMatch key) with
      | some c => exact ⟨c, rfl⟩
      | none =>
        exfalso
        rw [List.find?_eq_none] at hfb
        apply hfb _ hpentry
        show wildMatch key (SchemaKey.pat p, compileRaw (some p) dp) = true
        simp [wildMatch, hpt]
    have hchmem : chosen ∈ (compileProps raw).filter isPatEntry :=
      mem_orderByDesc.1 (List.mem_of_find?_eq_some hch)
    have hchw : wildMatch key chosen = true := List.find?_some hch
    have hchmem2 := (List.mem_filter.1 hchmem).1
    rw [compileProps_eq_map] at hchmem2
    obtain ⟨⟨q, dq⟩, hq, hche⟩ := List.mem_map.1 hchmem2
    have hqs : hasStar q = true := by
      by_contra hqs
      have hpe := (List.mem_filter.1 hchmem).2
      rw [← hche] at hpe
      unfold isPatEntry mkKey at hpe
      rw [if_neg hqs] at hpe
      cases hpe
    have hche2 : chosen = (SchemaKey.pat q, compileRaw (some q) dq) := by
      rw [← hche]
      simp [mkKey, hqs]
    have hqt : reTest q key = true := by
      rw [hche2] at hchw
      simp only [wildMatch] at hchw
      rw [Bool.or_eq_true] at hchw
      rcases hchw with hfast | ht
      · have hq2 : q = "*" := by
          rw [origKey_compileRaw] at hfast
          have := eq_of_beq hfast
          exact Option.some.inj this
        rw [hq2]
        exact reTest_star key
      · exact ht
    refine ⟨q, dq, hq, hqs, hqt, ?_, ?_⟩
    · -- maximality: every matching wildcard has at most q's literal count
      intro r dr hr hrs hrt
      have hrentry : (SchemaKey.pat r, compileRaw (some r) dr) ∈
          orderByDesc entryLitLen ((compileProps raw).filter isPatEntry) := by
        rw [mem_orderByDesc]
        apply List.mem_filter.2
        refine ⟨?_, rfl⟩
        rw [compileProps_eq_map]
        exact List.mem_map.2 ⟨(r, dr), hr, by simp [mkKey, hrs]⟩
      have hrw : wildMatch key (SchemaKey.pat r, compileRaw (some r) dr) = true := by
        simp [wildMatch, hrt]
      have hmax := find?_sorted_max (pairwise_orderByDesc _) hch _ hrentry hrw
      rw [hche2] at hmax
      exact hmax
    · -- the resolved rule is q's compiled rule
      unfold getMatchRule
      rw [hlitnone]
      have : (compileSchema raw).find? (wildMatch key) = some chosen := by
        rw [hsplit, List.find?_append, hlitpart, hch]
        rfl
      rw [this, hche2]
      rfl

/-- C2 witness: on the scenario schema the literal rule `foo` is resolved
by the exact lookup, and on the two-wildcard schema the pattern `bar*`
(three literal characters) beats `ba*` (two) for key `barxxx`. -/
theorem c2_witness :
    (schemaS.map Prod.fst).Nodup ∧
    getMatchRule (compileSchema schemaS) "foo" = some (compileRaw (some "foo") rawFoo) ∧
    getMatchRule (compileSchema schemaBa) "barxxx" =
      some (compileRaw (some "bar*") (.mk (some .string) none none)) :=
  ⟨by decide,
   (c2_rule_priority schemaS "foo" (by decide)).1 rawFoo (List.mem_cons_self _ _) rfl,
   rfl⟩

/-! ## C10: the `"*"` fast path refines the naive regex scan -/

/-- C10: on every compiled rule map, the optimised lookup — exact map hit
first, then a wildcard scan that accepts a `"*"`-keyed entry without
running its regex — returns the same rule as the naive reference lookup
that tests every wildcard entry's compiled regex in the same order.  Sound
because compilation stores each wildcard entry's own pattern in `__key__`,
and the `"*"` pattern's regex accepts every key. -/
theorem c10_fast_path_refinement (raw : List (String × Raw)) (key : String) :
    getMatchRule (compileSchema raw) key = getMatchRuleNaive (compileSchema raw) key := by
  have hcong : ∀ e ∈ compileSchema raw, wildMatch key e = wildMatchNaive key e := by
    intro e he
    cases h1 : e.1 with
    | lit s => simp [wildMatch, wildMatchNaive, h1]
    | pat p =>
      have hok := pat_origKey_compileSchema he h1
      simp only [wildMatch, wildMatchNaive, h1]
      rw [hok]
      by_cases hstar : p = "*"
      · subst hstar
        simp [reTest_star]
      · have hbf : (some p == some "*") = false :=
          beq_eq_false_iff_ne.2 fun h => hstar (Option.some.inj h)
        rw [hbf, Bool.false_or]
  unfold getMatchRule getMatchRuleNaive
  rw [find?_congr_mem hcong]

/-! ## C8: recursion into object properties -/

/-- C8: when the resolved rule has type `object` (and the ttl guard
passes), validation of an object value recurses into every key of the
value's OWN property set against the rule's compiled `properties` map,
with the path extended by the subkey — so a field violating its child rule
raises the nested violation, a fully conforming value raises nothing, a
field with no resolvable child rule raises `NoMatchingRule` recursively —
and an object rule without `properties` skips recursion entirely and
accepts any object. -/
theorem c8_object_recursion (m : List (SchemaKey × Rule)) (key : String) (rule : Rule)
    (fields : List (String × JVal)) (path : String) (ttl : Option Nat)
    (hr : getMatchRule m key = some rule)
    (httl : ttlViolated ttl rule.maxTTL = false)
    (hct : rule.ctype = some .object) :
    vaildateCache m key (.jobj fields) path ttl =
      match rule.properties with
      | some pm => validateFields pm fields (extendPath path key) ttl
      | none => none := by
  rcases hpr : rule.properties with _ | pm <;>
    simp [vaildateCache, hr, httl, hct, hpr, typeCheck]

/-- C8 witness: the scenario schema behaves as specified on `barxxx` and
`benxxx`: nested TypeMismatch on `name`, success when `name` is a string,
recursion skipped for the propertyless `ben*` object rule, and recursive
NoMatchingRule for an undeclared field. -/
theorem c8_witness :
    getMatchRule ruleMapS "barxxx" = some ruleBar ∧
    ttlViolated none ruleBar.maxTTL = false ∧
    ruleBar.ctype = some CType.object ∧
    (vaildateCache ruleMapS "barxxx" (.jobj [("name", .jnum 1)]) "" none =
      match ruleBar.properties with
      | some pm => validateFields pm [("name", .jnum 1)] (extendPath "" "barxxx") none
      | none => none) ∧
    vaildateCache ruleMapS "barxxx" (.jobj [("name", .jnum 1)]) "" none =
      some (.typeMismatch "barxxx.name" (.jnum 1) .string) ∧
    vaildateCache ruleMapS "barxxx" (.jobj [("name", .jstr "1")]) "" none = none ∧
    vaildateCache ruleMapS "benxxx" (.jobj [("x", .jnum 1), ("y", .jnum 2)]) "" none = none ∧
    vaildateCache ruleMapS "barxxx" (.jobj [("age", .jnum 1)]) "" none =
      some (.noMatchingRule "barxxx.age") :=
  ⟨rfl, rfl, rfl,
   c8_object_recursion ruleMapS "barxxx" ruleBar [("name", .jnum 1)] "" none rfl rfl rfl,
   rfl, rfl, rfl, rfl⟩

/-! ## C9: compilation mutates and shares the caller's schema -/

/-- C9 counterexample: the claim says compilation shares no nodes with the
caller-supplied schema objects and never mutates them.  On the concrete
two-node schema, after `transformSchema` the caller's child node has
gained a `__key__` field (it had none before), and the returned compiled
root IS the caller's root node — full sharing. -/
theorem c9_counterexample :
    (hGet (transformSchemaH 3 heapC9 0).1 1).map HNode.extraKey = some (some "a") ∧
    (hGet heapC9 1).map HNode.extraKey = some none ∧
    (transformSchemaH 3 heapC9 0).2 = 0 :=
  ⟨rfl, rfl, rfl⟩

/-- C9 (amended): schema compilation returns the very node it was given —
the compiled structure is the caller's own object graph, shared in full —
and it rewrites the caller-supplied nodes in place: on the concrete
two-node schema both the root (its `properties` record is replaced by the
compiled map) and the child (a `__key__` field is written onto it) differ
after compilation. -/
theorem c9_in_place_compilation :
    (∀ fuel h i, (transformSchemaH fuel h i).2 = i) ∧
    hGet (transformSchemaH 3 heapC9 0).1 0 ≠ hGet heapC9 0 ∧
    hGet (transformSchemaH 3 heapC9 0).1 1 ≠ hGet heapC9 1 := by
  refine ⟨?_, by decide, by decide⟩
  intro fuel h i
  cases fuel with
  | zero => rfl
  | succ fuel =>
    unfold transformSchemaH
    split
    · rfl
    · split
      · rfl
      · rfl

/-! ## Helper lemmas about the pipeline -/

theorem jsStartsWith_append_self (a b : String) : jsStartsWith (a ++ b) a = true := by
  unfold jsStartsWith
  rw [String.data_append, List.isPrefixOf_iff_prefix]
  exact List.prefix_append _ _

theorem hooksOf_append (a b : List Action) :
    hooksOf (a ++ b) = hooksOf a ++ hooksOf b :=
  List.filterMap_append a b _

theorem errEventsOf_append (a b : List Action) :
    errEventsOf (a ++ b) = errEventsOf a ++ errEventsOf b :=
  List.filterMap_append a b _

theorem compressEventsOf_append (a b : List Action) :
    compressEventsOf (a ++ b) = compressEventsOf a ++ compressEventsOf b :=
  List.filterMap_append a b _

theorem storeCallsOf_append (a b : List Action) :
    storeCallsOf (a ++ b) = storeCallsOf a ++ storeCallsOf b :=
  List.filterMap_append a b _

/-- The trace of a silent validation holds no hooks, no store calls and no
compress events: it is empty or a single `error` emission. -/
theorem vaildateCacheSilent_fst_cases (cfg : CacheCfg) (key : String) (v : JVal)
    (path : String) (ttl : Option Nat) :
    (vaildateCacheSilent cfg key v path ttl).1 = [] ∨
    ∃ e, (vaildateCacheSilent cfg key v path ttl).1 =
      [Action.emit (.err (.schemaViolation e))] := by
  unfold vaildateCacheSilent
  cases hrm : cfg.ruleMap with
  | none => exact Or.inl rfl
  | some rm =>
    dsimp only
    cases hve : vaildateCache rm key v path ttl with
    | none => exact Or.inl rfl
    | some e =>
      dsimp only
      cases hb : cfg.hasErrorListener with
      | false => simp
      | true => exact Or.inr ⟨e, by simp⟩

theorem vaildateCacheSilent_proj (cfg : CacheCfg) (key : String) (v : JVal)
    (path : String) (ttl : Option Nat) :
    hooksOf (vaildateCacheSilent cfg key v path ttl).1 = [] ∧
    storeCallsOf (vaildateCacheSilent cfg key v path ttl).1 = [] ∧
    compressEventsOf (vaildateCacheSilent cfg key v path ttl).1 = [] := by
  rcases vaildateCacheSilent_fst_cases cfg key v path ttl with h | ⟨e, h⟩ <;>
    rw [h] <;> exact ⟨rfl, rfl, rfl⟩

/-- With an `error` listener registered, silent validation never
throws. -/
theorem vaildateCacheSilent_hl {cfg : CacheCfg} (hl : cfg.hasErrorListener = true)
    (key : String) (v : JVal) (path : String) (ttl : Option Nat) :
    (vaildateCacheSilent cfg key v path ttl).2 = none := by
  unfold vaildateCacheSilent
  cases hrm : cfg.ruleMap with
  | none => rfl
  | some rm =>
    dsimp only
    cases hve : vaildateCache rm key v path ttl with
    | none => rfl
    | some e =>
      dsimp only
      rw [hl]
      simp

/-- The shape of `set` when validation does not throw. -/
theorem cacheSet_eq_of_valid {cfg : CacheCfg} {cd : Codec} {key : String} {v : JVal}
    {ttl : Option Nat} {gz nx : Bool} {t0 : List Action}
    (hv : vaildateCacheSilent cfg key v "" ttl = (t0, none)) :
    cacheSet cfg cd key v ttl gz nx =
      ⟨t0 ++ (if gz then
          [Action.emit (.compress key
            (decide ((GZIP_FLAG ++ cd.gzipB64 (cd.jstringify v)).length <
              (cd.jstringify v).length))
            (setFinalStr cd v gz))]
        else []) ++
        [Action.hook ⟨"set", key, some (setFinalStr cd v gz), some v, ttl⟩,
         Action.store (.sset (key ++ cfg.suffix) (setFinalStr cd v gz) ttl nx gz)],
        none, some ()⟩ := by
  unfold cacheSet
  rw [hv]

/-- The shape of `set` when validation throws (no listener). -/
theorem cacheSet_eq_of_thrown {cfg : CacheCfg} {cd : Codec} {key : String} {v : JVal}
    {ttl : Option Nat} {gz nx : Bool} {t0 : List Action} {e : Thrown}
    (hv : vaildateCacheSilent cfg key v "" ttl = (t0, some e)) :
    cacheSet cfg cd key v ttl gz nx = ⟨[], some e, none⟩ := by
  unfold cacheSet
  rw [hv]

/-- If `set` did not throw, its validation step did not throw. -/
theorem cacheSet_thrown_none_valid {cfg : CacheCfg} {cd : Codec} {key : String}
    {v : JVal} {ttl : Option Nat} {gz nx : Bool}
    (hok : (cacheSet cfg cd key v ttl gz nx).thrown = none) :
    vaildateCacheSilent cfg key v "" ttl =
      ((vaildateCacheSilent cfg key v "" ttl).1, none) := by
  rcases hv : vaildateCacheSilent cfg key v "" ttl with ⟨t0, th⟩
  cases th with
  | none => rfl
  | some e =>
    exfalso
    have heq : cacheSet cfg cd key v ttl gz nx = ⟨[], some e, none⟩ :=
      cacheSet_eq_of_thrown hv
    rw [heq] at hok
    exact Option.noConfusion hok

theorem setFinalStr_false (cd : Codec) (v : JVal) :
    setFinalStr cd v false = cd.jstringify v := rfl

theorem setFinalStr_true (cd : Codec) (v : JVal) :
    setFinalStr cd v true =
      (if (GZIP_FLAG ++ cd.gzipB64 (cd.jstringify v)).length < (cd.jstringify v).length
       then GZIP_FLAG ++ cd.gzipB64 (cd.jstringify v)
       else cd.jstringify v) := rfl

/-- A non-throwing `set` stores exactly the final string of the
compression decision. -/
theorem cacheSet_writtenStr {cfg : CacheCfg} {cd : Codec} {key : String}
    {v : JVal} {ttl : Option Nat} {gz nx : Bool}
    (hok : (cacheSet cfg cd key v ttl gz nx).thrown = none) :
    writtenStr (cacheSet cfg cd key v ttl gz nx).trace = some (setFinalStr cd v gz) := by
  have hv := cacheSet_thrown_none_valid hok
  rw [cacheSet_eq_of_valid hv]
  obtain ⟨hh0, hs0, hc0⟩ := vaildateCacheSilent_proj cfg key v "" ttl
  show writtenStr _ = _
  unfold writtenStr
  rw [storeCallsOf_append, storeCallsOf_append, hs0]
  cases gz <;> simp [storeCallsOf]

/-! ## C1: the get-after-set round trip -/

/-- C1: for every value and key, `get(key)` after `set(key, v)` returns
the original value, on both the compressed and the uncompressed storage
path, assuming the backing store returns exactly the string `set` stored.
The hypotheses are the documented properties of the external
collaborators: `JSON.parse` inverts `JSON.stringify`, serialized JSON
never begins with the `_gzip_` marker, decompression inverts compression,
and lodash's character-set `trimStart` recovers exactly the base64 payload
(true of real gzip base64 output, which begins with `H`). -/
theorem c1_roundtrip (cfg : CacheCfg) (cd : Codec) (key : String) (v : JVal)
    (ttl : Option Nat) (gz nx : Bool)
    (hparse : cd.jparse (cd.jstringify v) = .ok v)
    (hflag : jsStartsWith (cd.jstringify v) GZIP_FLAG = false)
    (hgz : cd.gunzipB64 (cd.gzipB64 (cd.jstringify v)) = cd.jstringify v)
    (htrim : trimStartStr GZIP_FLAG (GZIP_FLAG ++ cd.gzipB64 (cd.jstringify v)) =
      cd.gzipB64 (cd.jstringify v))
    (hok : (cacheSet cfg cd key v ttl gz nx).thrown = none)
    (s : String)
    (hs : writtenStr (cacheSet cfg cd key v ttl gz nx).trace = some s) :
    (cacheGet cfg cd key (some s) true).result = some (.val v) := by
  have hs2 : s = setFinalStr cd v gz := by
    rw [cacheSet_writtenStr hok] at hs
    exact (Option.some.inj hs).symm
  subst hs2
  cases gz with
  | false =>
    rw [setFinalStr_false]
    simp [cacheGet, hflag, hparse]
  | true =>
    by_cases hlen :
        (GZIP_FLAG ++ cd.gzipB64 (cd.jstringify v)).length < (cd.jstringify v).length
    · rw [setFinalStr_true, if_pos hlen]
      simp [cacheGet, jsStartsWith_append_self, htrim, hgz, hparse]
    · rw [setFinalStr_true, if_neg hlen]
      simp [cacheGet, hflag, hparse]

/-- C1 witness: a concrete round trip through the compressed path (the
codec instantiates the external collaborators; compression is requested
but not adopted since it is longer, and the raw serialized string is
parsed back). -/
theorem c1_witness :
    cdRt.jparse (cdRt.jstringify (.jnum 5)) = .ok (.jnum 5) ∧
    jsStartsWith (cdRt.jstringify (.jnum 5)) GZIP_FLAG = false ∧
    cdRt.gunzipB64 (cdRt.gzipB64 (cdRt.jstringify (.jnum 5))) = cdRt.jstringify (.jnum 5) ∧
    trimStartStr GZIP_FLAG (GZIP_FLAG ++ cdRt.gzipB64 (cdRt.jstringify (.jnum 5))) =
      cdRt.gzipB64 (cdRt.jstringify (.jnum 5)) ∧
    (cacheSet cfgPlainL cdRt "k" (.jnum 5) (some 60) true false).thrown = none ∧
    writtenStr (cacheSet cfgPlainL cdRt "k" (.jnum 5) (some 60) true false).trace =
      some "X" ∧
    (cacheGet cfgPlainL cdRt "k" (some "X") true).result = some (.val (.jnum 5)) :=
  ⟨rfl, rfl, rfl, rfl, rfl, rfl,
   c1_roundtrip cfgPlainL cdRt "k" (.jnum 5) (some 60) true false
     rfl rfl rfl rfl rfl "X" rfl⟩

/-! ## C3: schema violations are advisory (events, not exceptions) -/

/-- C3 counterexample: the claim says a schema violation is never thrown
to the caller and the value is still written, regardless of whether any
`error` listener is registered.  With NO `error` listener, Node's
`EventEmitter` throws the emitted error: the TTL-exceeding `set` on the
`schemaFoo` cache rejects with the violation and nothing is written to the
store — exactly what the repository's own tests
(`expect(cache.set(..)).rejects.toThrowError()`) rely on. -/
theorem c3_counterexample :
    (cacheSet cfgFooNoL cdPlain "foo" (.jstr "1") (some 70) false false).thrown =
      some (.schema (.ttlExceeded "foo" 70)) ∧
    storeCallsOf (cacheSet cfgFooNoL cdPlain "foo" (.jstr "1") (some 70) false false).trace =
      [] :=
  ⟨rfl, rfl⟩

theorem errEventsOf_map_hook {α : Type} (f : α → HookData) (l : List α) :
    errEventsOf (l.map (fun a => Action.hook (f a))) = [] := by
  induction l with
  | nil => rfl
  | cons a l ih =>
    unfold errEventsOf at ih ⊢
    simp only [List.map_cons, List.filterMap_cons]
    exact ih

theorem storeCallsOf_map_hook {α : Type} (f : α → HookData) (l : List α) :
    storeCallsOf (l.map (fun a => Action.hook (f a))) = [] := by
  induction l with
  | nil => rfl
  | cons a l ih =>
    unfold storeCallsOf at ih ⊢
    simp only [List.map_cons, List.filterMap_cons]
    exact ih

/-- With an `error` listener, the validation loop of `mset` never throws,
its trace is exactly one `error` event per violating pair (in pair order)
and it delegates nothing to the store. -/
theorem msetValidate_hl_err {cfg : CacheCfg} {rm : List (SchemaKey × Rule)}
    (hl : cfg.hasErrorListener = true) (hrm : cfg.ruleMap = some rm)
    (ttl : Option Nat) (args : List (String × JVal)) :
    (msetValidate cfg ttl args).2 = none ∧
    errEventsOf (msetValidate cfg ttl args).1 =
      args.filterMap
        (fun a => (vaildateCache rm a.1 a.2 "" ttl).map ErrPayload.schemaViolation) ∧
    storeCallsOf (msetValidate cfg ttl args).1 = [] := by
  induction args with
  | nil => exact ⟨rfl, rfl, rfl⟩
  | cons a rest ih =>
    obtain ⟨k, v⟩ := a
    obtain ⟨ih1, ih2, ih3⟩ := ih
    unfold msetValidate
    have hv : vaildateCacheSilent cfg k v "" ttl =
        (match vaildateCache rm k v "" ttl with
         | none => ([], none)
         | some e => ([Action.emit (.err (.schemaViolation e))], none)) := by
      unfold vaildateCacheSilent
      rw [hrm]
      dsimp only
      cases hve : vaildateCache rm k v "" ttl with
      | none => rfl
      | some e =>
        dsimp only
        rw [if_pos hl]
    rw [hv]
    cases hve : vaildateCache rm k v "" ttl with
    | none =>
      dsimp only
      rcases hrest : msetValidate cfg ttl rest with ⟨t2, th2⟩
      rw [hrest] at ih1 ih2 ih3
      dsimp only at ih1 ih2 ih3
      dsimp only
      refine ⟨ih1, ?_, ?_⟩
      · simp only [List.filterMap_cons, hve, Option.map_none']
        rw [List.nil_append, ih2]
      · rw [List.nil_append, ih3]
    | some e =>
      dsimp only
      rcases hrest : msetValidate cfg ttl rest with ⟨t2, th2⟩
      rw [hrest] at ih1 ih2 ih3
      dsimp only at ih1 ih2 ih3
      dsimp only
      refine ⟨ih1, ?_, ?_⟩
      · simp only [List.filterMap_cons, hve, Option.map_some']
        unfold errEventsOf at ih2 ⊢
        simp only [List.cons_append, List.nil_append, List.filterMap_cons]
        rw [ih2]
      · unfold storeCallsOf at ih3 ⊢
        simp only [List.cons_append, List.nil_append, List.filterMap_cons]
        exact ih3

/-- C3 (amended): provided at least one `error` listener is registered
(Node's `EventEmitter` otherwise throws the unhandled `error` event), a
schema violation on `set` OR `mset` is never thrown to the caller: on
`set` the call completes, exactly one `error` event is emitted carrying
the violation, and the value is still written to the backing store; on
`mset` the call completes, exactly one `error` event is emitted per
violating pair (in pair order), and every pair — violating or not — is
still written by the single batched store call. -/
theorem c3_advisory_validation (cfg : CacheCfg) (cd : Codec)
    (rm : List (SchemaKey × Rule))
    (hl : cfg.hasErrorListener = true)
    (hrm : cfg.ruleMap = some rm) :
    (∀ (key : String) (v : JVal) (ttl : Option Nat) (gz nx : Bool) (e : VErr),
      vaildateCache rm key v "" ttl = some e →
      (cacheSet cfg cd key v ttl gz nx).thrown = none ∧
      errEventsOf (cacheSet cfg cd key v ttl gz nx).trace = [.schemaViolation e] ∧
      writtenStr (cacheSet cfg cd key v ttl gz nx).trace = some (setFinalStr cd v gz)) ∧
    (∀ (args : List (String × JVal)) (ttl : Option Nat),
      (cacheMset cfg cd args ttl).thrown = none ∧
      errEventsOf (cacheMset cfg cd args ttl).trace =
        args.filterMap
          (fun a => (vaildateCache rm a.1 a.2 "" ttl).map ErrPayload.schemaViolation) ∧
      storeCallsOf (cacheMset cfg cd args ttl).trace =
        [.smset (args.map (fun a => (a.1 ++ cfg.suffix, cd.jstringify a.2))) ttl]) := by
  constructor
  · intro key v ttl gz nx e he
    have hv : vaildateCacheSilent cfg key v "" ttl =
        ([Action.emit (.err (.schemaViolation e))], none) := by
      unfold vaildateCacheSilent
      rw [hrm]
      dsimp only
      rw [he]
      dsimp only
      rw [hl]
      simp
    rw [cacheSet_eq_of_valid hv]
    refine ⟨rfl, ?_, ?_⟩
    · cases gz <;> simp [errEventsOf_append, errEventsOf]
    · cases gz <;> simp [writtenStr, storeCallsOf_append, storeCallsOf]
  · intro args ttl
    unfold cacheMset
    rcases hval : msetValidate cfg ttl args with ⟨t0, th⟩
    have hms := msetValidate_hl_err hl hrm ttl args
    rw [hval] at hms
    dsimp only at hms
    obtain ⟨hth, herr, hsc⟩ := hms
    subst hth
    dsimp only
    refine ⟨rfl, ?_, ?_⟩
    · rw [errEventsOf_append, errEventsOf_append, herr, errEventsOf_map_hook]
      simp [errEventsOf]
    · rw [storeCallsOf_append, storeCallsOf_append, hsc, storeCallsOf_map_hook]
      simp [storeCallsOf]

/-- C3 witness: on the `schemaFoo` cache with a listener, the
TTL-exceeding `set` emits exactly one error event and still stores the
serialized value, and an `mset` batch with one violating pair emits
exactly one error event (carrying the TypeMismatch) while still writing
both pairs in its single batched store call. -/
theorem c3_witness :
    cfgFooL.hasErrorListener = true ∧
    cfgFooL.ruleMap = some (compileSchema schemaFoo) ∧
    vaildateCache (compileSchema schemaFoo) "foo" (.jstr "1") "" (some 70) =
      some (.ttlExceeded "foo" 70) ∧
    ((cacheSet cfgFooL cdPlain "foo" (.jstr "1") (some 70) false false).thrown = none ∧
     errEventsOf (cacheSet cfgFooL cdPlain "foo" (.jstr "1") (some 70) false false).trace =
       [.schemaViolation (.ttlExceeded "foo" 70)] ∧
     writtenStr (cacheSet cfgFooL cdPlain "foo" (.jstr "1") (some 70) false false).trace =
       some (setFinalStr cdPlain (.jstr "1") false)) ∧
    ((cacheMset cfgFooL cdPlain msetArgsW none).thrown = none ∧
     errEventsOf (cacheMset cfgFooL cdPlain msetArgsW none).trace =
       msetArgsW.filterMap
         (fun a => (vaildateCache (compileSchema schemaFoo) a.1 a.2 "" none).map
           ErrPayload.schemaViolation) ∧
     storeCallsOf (cacheMset cfgFooL cdPlain msetArgsW none).trace =
       [.smset (msetArgsW.map (fun a => (a.1 ++ cfgFooL.suffix, cdPlain.jstringify a.2)))
         none]) ∧
    errEventsOf (cacheMset cfgFooL cdPlain msetArgsW none).trace =
      [.schemaViolation (.typeMismatch "foo" (.jnum 2) .string)] :=
  ⟨rfl, rfl, rfl,
   (c3_advisory_validation cfgFooL cdPlain (compileSchema schemaFoo) rfl rfl).1
     "foo" (.jstr "1") (some 70) false false (.ttlExceeded "foo" 70) rfl,
   (c3_advisory_validation cfgFooL cdPlain (compileSchema schemaFoo) rfl rfl).2
     msetArgsW none,
   rfl⟩

/-! ## C4: parse failures on get -/

/-- C4 counterexample: the claim says a failed parse makes `get` return
the raw (unparsed) stored string.  In the code, `parse` returns
`[error, undefined]` on failure and `get` returns the value slot, so the
call returns `undefined`, not the stored string `"abc"`. -/
theorem c4_counterexample :
    (cacheGet cfgPlainL cdErr "k" (some "abc") true).result = some JsVal.undef ∧
    (cacheGet cfgPlainL cdErr "k" (some "abc") true).result ≠
      some (JsVal.val (.jstr "abc")) ∧
    errEventsOf (cacheGet cfgPlainL cdErr "k" (some "abc") true).trace =
      [.parseFailure "SyntaxError" "k" (some "abc") "get"] :=
  ⟨rfl, fun h => JsVal.noConfusion (Option.some.inj h), rfl⟩

/-- C4 (amended): when the stored string is not valid serialized data,
`get` (with parsing enabled and an `error` listener registered) does not
throw: it emits one `error` event carrying the original parse error and
the `{key, value, operation}` context, and returns `undefined` — the value
slot of the failed parse — rather than the raw stored string. -/
theorem c4_parse_failure (cfg : CacheCfg) (cd : Codec) (key s m : String)
    (hl : cfg.hasErrorListener = true)
    (hflag : jsStartsWith s GZIP_FLAG = false)
    (hp : cd.jparse s = .error m) :
    (cacheGet cfg cd key (some s) true).thrown = none ∧
    errEventsOf (cacheGet cfg cd key (some s) true).trace =
      [.parseFailure m (key ++ cfg.suffix) (some s) "get"] ∧
    (cacheGet cfg cd key (some s) true).result = some .undef := by
  have heq : cacheGet cfg cd key (some s) true =
      ⟨[Action.store (.sget (key ++ cfg.suffix)),
        Action.emit (.err (.parseFailure m (key ++ cfg.suffix) (some s) "get")),
        Action.hook ⟨"get", key, none, none, none⟩], none, some .undef⟩ := by
    simp [cacheGet, hflag, hp, hl]
  rw [heq]
  exact ⟨rfl, rfl, rfl⟩

/-- C4 witness: a concrete failed parse returning `undefined` with one
error event. -/
theorem c4_witness :
    cfgPlainL.hasErrorListener = true ∧
    jsStartsWith "abc" GZIP_FLAG = false ∧
    cdErr.jparse "abc" = .error "SyntaxError" ∧
    ((cacheGet cfgPlainL cdErr "kk" (some "abc") true).thrown = none ∧
     errEventsOf (cacheGet cfgPlainL cdErr "kk" (some "abc") true).trace =
       [.parseFailure "SyntaxError" ("kk" ++ cfgPlainL.suffix) (some "abc") "get"] ∧
     (cacheGet cfgPlainL cdErr "kk" (some "abc") true).result = some .undef) :=
  ⟨rfl, rfl, rfl, c4_parse_failure cfgPlainL cdErr "kk" "abc" "SyntaxError" rfl rfl rfl⟩

/-! ## C5: the compression decision and its event -/

/-- C5: for every `set(key, v, ttl, {gzip: true})` call that completes,
exactly one `compress` event is emitted; the marker-prefixed compressed
representation is stored exactly when it is strictly shorter than the raw
serialized string (otherwise the raw string is stored); and the event
reports the key, the final stored string, and `hasGzip` true exactly on
adoption. -/
theorem c5_compress_decision (cfg : CacheCfg) (cd : Codec) (key : String) (v : JVal)
    (ttl : Option Nat) (nx : Bool)
    (hok : (cacheSet cfg cd key v ttl true nx).thrown = none) :
    compressEventsOf (cacheSet cfg cd key v ttl true nx).trace =
      [(key,
        decide ((GZIP_FLAG ++ cd.gzipB64 (cd.jstringify v)).length < (cd.jstringify v).length),
        setFinalStr cd v true)] ∧
    writtenStr (cacheSet cfg cd key v ttl true nx).trace = some (setFinalStr cd v true) ∧
    setFinalStr cd v true =
      (if (GZIP_FLAG ++ cd.gzipB64 (cd.jstringify v)).length < (cd.jstringify v).length
       then GZIP_FLAG ++ cd.gzipB64 (cd.jstringify v)
       else cd.jstringify v) := by
  have hv := cacheSet_thrown_none_valid hok
  refine ⟨?_, cacheSet_writtenStr hok, setFinalStr_true cd v⟩
  rw [cacheSet_eq_of_valid hv]
  obtain ⟨hh0, hs0, hc0⟩ := vaildateCacheSilent_proj cfg key v "" ttl
  show compressEventsOf _ = _
  rw [compressEventsOf_append, compressEventsOf_append, hc0]
  simp [compressEventsOf]

/-- C5 witness: compression requested for a one-character serialized
value; the compressed form is longer, so the event reports
`hasGzip = false` and the raw string is written. -/
theorem c5_witness :
    (cacheSet cfgPlainL cdPlain "k" (.jstr "1") none true false).thrown = none ∧
    (compressEventsOf (cacheSet cfgPlainL cdPlain "k" (.jstr "1") none true false).trace =
      [("k",
        decide ((GZIP_FLAG ++ cdPlain.gzipB64 (cdPlain.jstringify (.jstr "1"))).length <
          (cdPlain.jstringify (.jstr "1")).length),
        setFinalStr cdPlain (.jstr "1") true)] ∧
     writtenStr (cacheSet cfgPlainL cdPlain "k" (.jstr "1") none true false).trace =
       some (setFinalStr cdPlain (.jstr "1") true) ∧
     setFinalStr cdPlain (.jstr "1") true =
       (if (GZIP_FLAG ++ cdPlain.gzipB64 (cdPlain.jstringify (.jstr "1"))).length <
            (cdPlain.jstringify (.jstr "1")).length
        then GZIP_FLAG ++ cdPlain.gzipB64 (cdPlain.jstringify (.jstr "1"))
        else cdPlain.jstringify (.jstr "1"))) :=
  ⟨rfl, c5_compress_decision cfgPlainL cdPlain "k" (.jstr "1") none false rfl⟩

/-! ## C7: hook coverage across the operations -/

theorem hooksOf_map_hook {α : Type} (f : α → HookData) (l : List α) :
    hooksOf (l.map (fun a => Action.hook (f a))) = l.map f := by
  induction l with
  | nil => rfl
  | cons a l ih =>
    unfold hooksOf at ih ⊢
    simp only [List.map_cons, List.filterMap_cons]
    rw [ih]

/-- With an `error` listener, the per-element `mget` pass never throws and
fires exactly one `get`-tagged hook per element. -/
theorem mgetStep_hl {cfg : CacheCfg} (cd : Codec) (hl : cfg.hasErrorListener = true)
    (l : List (String × Option String)) :
    (mgetStep cfg cd l).2.1 = none ∧
    (hooksOf (mgetStep cfg cd l).1).length = l.length ∧
    ∀ d ∈ hooksOf (mgetStep cfg cd l).1, d.operation = "get" := by
  induction l with
  | nil => exact ⟨rfl, rfl, fun d hd => absurd hd (List.not_mem_nil d)⟩
  | cons e rest ih =>
    obtain ⟨nk, sv⟩ := e
    obtain ⟨ih1, ih2, ih3⟩ := ih
    rcases hrest : mgetStep cfg cd rest with ⟨tr, th, vs⟩
    rw [hrest] at ih1 ih2 ih3
    dsimp only at ih1 ih2 ih3
    unfold mgetStep
    dsimp only
    cases hpr : (match sv with | none => Except.ok JVal.jnull | some s => cd.jparse s) with
    | ok v =>
      dsimp only
      rw [hrest]
      dsimp only
      refine ⟨ih1, ?_, ?_⟩
      · unfold hooksOf at ih2 ⊢
        simp only [List.filterMap_cons, List.length_cons]
        rw [ih2]
      · intro d hd
        unfold hooksOf at ih3 hd
        simp only [List.filterMap_cons] at hd
        rcases List.mem_cons.1 hd with rfl | hd2
        · rfl
        · exact ih3 d hd2
    | error m =>
      dsimp only
      rw [if_pos hl, hrest]
      dsimp only
      refine ⟨ih1, ?_, ?_⟩
      · unfold hooksOf at ih2 ⊢
        simp only [List.filterMap_cons, List.length_cons]
        rw [ih2]
      · intro d hd
        unfold hooksOf at ih3 hd
        simp only [List.filterMap_cons] at hd
        rcases List.mem_cons.1 hd with rfl | hd2
        · rfl
        · exact ih3 d hd2

/-- With an `error` listener, the `mset` validation loop never throws and
its trace carries no hooks and no store calls. -/
theorem msetValidate_hl {cfg : CacheCfg} (hl : cfg.hasErrorListener = true)
    (ttl : Option Nat) (args : List (String × JVal)) :
    (msetValidate cfg ttl args).2 = none ∧
    hooksOf (msetValidate cfg ttl args).1 = [] ∧
    storeCallsOf (msetValidate cfg ttl args).1 = [] := by
  induction args with
  | nil => exact ⟨rfl, rfl, rfl⟩
  | cons a rest ih =>
    obtain ⟨k, v⟩ := a
    obtain ⟨ih1, ih2, ih3⟩ := ih
    unfold msetValidate
    rcases hv : vaildateCacheSilent cfg k v "" ttl with ⟨t, th⟩
    cases th with
    | some e =>
      exfalso
      have h2 := vaildateCacheSilent_hl hl k v "" ttl
      rw [hv] at h2
      exact Option.noConfusion h2
    | none =>
      dsimp only
      rcases hrest : msetValidate cfg ttl rest with ⟨t2, th2⟩
      rw [hrest] at ih1 ih2 ih3
      dsimp only at ih1 ih2 ih3
      have hproj := vaildateCacheSilent_proj cfg k v "" ttl
      rw [hv] at hproj
      dsimp only at hproj
      obtain ⟨hth, hts, _⟩ := hproj
      refine ⟨ih1, ?_, ?_⟩
      · rw [hooksOf_append, hth, ih2]
        rfl
      · rw [storeCallsOf_append, hts, ih3]
        rfl

/-- With an `error` listener, `get`'s trace is the store fetch FIRST,
followed by exactly one `get`-tagged hook. -/
theorem cacheGet_trace_hl {cfg : CacheCfg} {cd : Codec} {key : String}
    {stored : Option String} (hl : cfg.hasErrorListener = true) :
    ∃ rest, (cacheGet cfg cd key stored true).trace =
      Action.store (.sget (key ++ cfg.suffix)) :: rest ∧
      (hooksOf rest).length = 1 ∧ ∀ d ∈ hooksOf rest, d.operation = "get" := by
  unfold cacheGet
  dsimp only
  cases stored with
  | none =>
    refine ⟨[Action.hook ⟨"get", key, none, some .jnull, none⟩], rfl, rfl, ?_⟩
    intro d hd
    rcases List.mem_cons.1 hd with rfl | hd2
    · rfl
    · cases hd2
  | some s =>
    dsimp only
    by_cases hsw : jsStartsWith s GZIP_FLAG = true
    · rw [if_pos hsw]
      dsimp only
      cases hpr : cd.jparse (cd.gunzipB64 (trimStartStr GZIP_FLAG s)) with
      | ok v =>
        refine ⟨[Action.hook ⟨"get", key, none, some v, none⟩], rfl, rfl, ?_⟩
        intro d hd
        rcases List.mem_cons.1 hd with rfl | hd2
        · rfl
        · cases hd2
      | error m =>
        dsimp only
        rw [if_pos hl]
        refine ⟨[Action.emit (.err (.parseFailure m (key ++ cfg.suffix)
            (some (cd.gunzipB64 (trimStartStr GZIP_FLAG s))) "get")),
          Action.hook ⟨"get", key, none, none, none⟩], rfl, rfl, ?_⟩
        intro d hd
        rcases List.mem_cons.1 hd with rfl | hd2
        · rfl
        · cases hd2
    · rw [if_neg hsw]
      dsimp only
      cases hpr : cd.jparse s with
      | ok v =>
        refine ⟨[Action.hook ⟨"get", key, none, some v, none⟩], rfl, rfl, ?_⟩
        intro d hd
        rcases List.mem_cons.1 hd with rfl | hd2
        · rfl
        · cases hd2
      | error m =>
        dsimp only
        rw [if_pos hl]
        refine ⟨[Action.emit (.err (.parseFailure m (key ++ cfg.suffix) (some s) "get")),
          Action.hook ⟨"get", key, none, none, none⟩], rfl, rfl, ?_⟩
        intro d hd
        rcases List.mem_cons.1 hd with rfl | hd2
        · rfl
        · cases hd2

/-- C7 counterexample: the claim says every pipeline operation — `get`,
`set`, `mget`, `mset`, `del`, `mdel`, `ttl`, `exists` and `reset` —
invokes the configured hook exactly once before delegating to the store.
But `reset` and `mdel` never invoke the hook at all, and `get` invokes it
only AFTER the store fetch (the store call is the first action of its
trace). -/
theorem c7_counterexample :
    hooksOf (cacheReset cfgPlainL).trace = [] ∧
    hooksOf (cacheMdel cfgPlainL ["a"]).trace = [] ∧
    (cacheGet cfgPlainL cdPlain "k" (some "1") true).trace =
      [Action.store (.sget "k"),
       Action.hook ⟨"get", "k", none, some (.jstr "1"), none⟩] :=
  ⟨rfl, rfl, rfl⟩

/-- C7 (amended): with an `error` listener registered, `set`, `del`,
`ttl` and `exists` invoke the configured hook exactly once with an
operation-tagged context before their store call; `get` invokes it exactly
once but only after the store fetch; `mget` and `mset` invoke it once per
element (tagged `get` / `set`, the `mset` hooks before the batched store
call); and `mdel` and `reset` never invoke it. -/
theorem c7_hook_coverage (cfg : CacheCfg) (cd : Codec)
    (hl : cfg.hasErrorListener = true) :
    (∀ key, (cacheDel cfg key).trace =
      [Action.hook ⟨"del", key, none, none, none⟩,
       Action.store (.sdel (key ++ cfg.suffix))]) ∧
    (∀ key, (cacheTtl cfg key).trace =
      [Action.hook ⟨"ttl", key, none, none, none⟩,
       Action.store (.sttl (key ++ cfg.suffix))]) ∧
    (∀ key, (cacheExists cfg key).trace =
      [Action.hook ⟨"exists", key, none, none, none⟩,
       Action.store (.sexists (key ++ cfg.suffix))]) ∧
    (∀ key v ttl gz nx, ∃ pre,
      (cacheSet cfg cd key v ttl gz nx).trace =
        pre ++ [Action.hook ⟨"set", key, some (setFinalStr cd v gz), some v, ttl⟩,
                Action.store (.sset (key ++ cfg.suffix) (setFinalStr cd v gz) ttl nx gz)] ∧
      hooksOf pre = []) ∧
    (∀ key stored, ∃ rest,
      (cacheGet cfg cd key stored true).trace =
        Action.store (.sget (key ++ cfg.suffix)) :: rest ∧
      (hooksOf rest).length = 1 ∧ ∀ d ∈ hooksOf rest, d.operation = "get") ∧
    (∀ keys stored, stored.length = keys.length →
      (cacheMget cfg cd keys stored).thrown = none ∧
      (hooksOf (cacheMget cfg cd keys stored).trace).length = keys.length ∧
      ∀ d ∈ hooksOf (cacheMget cfg cd keys stored).trace, d.operation = "get") ∧
    (∀ args ttl,
      (cacheMset cfg cd args ttl).thrown = none ∧
      hooksOf (cacheMset cfg cd args ttl).trace =
        args.map (fun a => ⟨"set", a.1, some (cd.jstringify a.2), some a.2, none⟩)) ∧
    (∀ keys, hooksOf (cacheMdel cfg keys).trace = []) ∧
    hooksOf (cacheReset cfg).trace = [] := by
  refine ⟨fun key => rfl, fun key => rfl, fun key => rfl, ?_, ?_, ?_, ?_, fun keys => rfl, rfl⟩
  · -- set: the hook comes right before the store write, after only emits
    intro key v ttl gz nx
    rcases hv : vaildateCacheSilent cfg key v "" ttl with ⟨t0, th⟩
    cases th with
    | some e =>
      exfalso
      have h2 := vaildateCacheSilent_hl hl key v "" ttl
      rw [hv] at h2
      exact Option.noConfusion h2
    | none =>
      rw [cacheSet_eq_of_valid hv]
      refine ⟨t0 ++ (if gz then
          [Action.emit (.compress key
            (decide ((GZIP_FLAG ++ cd.gzipB64 (cd.jstringify v)).length <
              (cd.jstringify v).length))
            (setFinalStr cd v gz))]
        else []), by simp, ?_⟩
      have hproj := vaildateCacheSilent_proj cfg key v "" ttl
      rw [hv] at hproj
      dsimp only at hproj
      rw [hooksOf_append, hproj.1]
      cases gz <;> simp [hooksOf]
  · -- get: hook fires only after the store fetch
    intro key stored
    exact cacheGet_trace_hl hl
  · -- mget: one get-tagged hook per element, after the batched fetch
    intro keys stored hlen
    unfold cacheMget
    dsimp only
    rcases hstep : mgetStep cfg cd ((keys.map (· ++ cfg.suffix)).zip stored) with ⟨tr, th, vs⟩
    have hmg := mgetStep_hl cd hl ((keys.map (· ++ cfg.suffix)).zip stored)
    rw [hstep] at hmg
    dsimp only at hmg
    obtain ⟨hth, hcount, htags⟩ := hmg
    subst hth
    dsimp only
    refine ⟨rfl, ?_, ?_⟩
    · unfold hooksOf at hcount ⊢
      simp only [List.filterMap_cons]
      rw [hcount, List.length_zip, List.length_map, hlen, Nat.min_self]
    · intro d hd
      unfold hooksOf at htags hd
      simp only [List.filterMap_cons] at hd
      exact htags d hd
  · -- mset: one set-tagged hook per pair, all before the batched write
    intro args ttl
    unfold cacheMset
    rcases hval : msetValidate cfg ttl args with ⟨t0, th⟩
    have hms := msetValidate_hl hl ttl args
    rw [hval] at hms
    dsimp only at hms
    obtain ⟨hth, hh, hs⟩ := hms
    subst hth
    dsimp only
    refine ⟨rfl, ?_⟩
    rw [hooksOf_append, hooksOf_append, hh, hooksOf_map_hook]
    simp [hooksOf]

/-- C7 witness: the coverage theorem applied to the concrete cache:
`reset` fires no hook, and `del` fires exactly one before its store
call. -/
theorem c7_witness :
    cfgPlainL.hasErrorListener = true ∧
    hooksOf (cacheReset cfgPlainL).trace = [] ∧
    (cacheDel cfgPlainL "k").trace =
      [Action.hook ⟨"del", "k", none, none, none⟩,
       Action.store (.sdel ("k" ++ cfgPlainL.suffix))] :=
  ⟨rfl, (c7_hook_coverage cfgPlainL cdPlain rfl).2.2.2.2.2.2.2.2,
   (c7_hook_coverage cfgPlainL cdPlain rfl).1 "k"⟩

end CacheManager
